import Mathlib

/-!
Verification of the `cpu-utils` affinity module (`src/cpu-utils/src/affinity.rs`,
error type in `src/cpu-utils/src/error.rs`).

Shallow embedding choices:
* Rust `&str` values are modelled as `List Char`; `str::trim` is modelled by
  `trimChars` (the inputs at hand only involve ASCII whitespace).
* `str::parse::<usize>` is modelled by `parseUsize`: an optional leading `+`
  sign followed by one or more decimal digits, rejecting the empty string and
  any value that would overflow a 64-bit `usize` (bound `USIZE_BOUND = 2 ^ 64`).
* `HashSet<usize>` is modelled as `Finset Nat`.  Where the Rust code iterates
  over a `HashSet` (validation in `set_cpu_affinity`), the iteration order is
  unspecified in Rust; the model iterates in ascending order.
* The operating system environment (contents of the sysfs files, the
  `sysconf` processor count, the scheduler state of the calling thread) is a
  `SysState` record; stateful operations are state-passing functions.
  `sched_setaffinity` on the current thread stores exactly the given mask
  (per spec section 6) and may be forced to fail via `schedSetFails`;
  `sched_getaffinity` on the current thread with a correctly sized set is
  modelled as always succeeding.  The counter `setCalls` records how many
  times the `sched_setaffinity` syscall was issued.
-/

/-- ASCII whitespace, the fragment of Unicode `White_Space` relevant here
(models Rust `char::is_whitespace` on the ASCII range). -/
def isWS (c : Char) : Bool :=
  decide (c = ' ' ∨ c = '\t' ∨ c = '\n' ∨ c = '\r' ∨ c = '\x0b' ∨ c = '\x0c')

/-- Model of Rust `str::trim`: drop whitespace from both ends. -/
def trimChars (l : List Char) : List Char :=
  ((l.dropWhile isWS).reverse.dropWhile isWS).reverse

/-- `usize::MAX + 1` on the 64-bit reference platform. -/
def USIZE_BOUND : Nat := 2 ^ 64

/-- Value of a decimal digit character, `none` for non-digits
(models `char::to_digit(10)` as used by integer parsing). -/
def digitVal (c : Char) : Option Nat :=
  if '0' ≤ c ∧ c ≤ '9' then some (c.toNat - '0'.toNat) else none

/-- Accumulating decimal parser with the `usize` overflow check
(models the digit loop of `from_str_radix`). -/
def parseDigitsAux (acc : Nat) : List Char → Option Nat
  | [] => some acc
  | c :: rest =>
    match digitVal c with
    | none => none
    | some d =>
      if acc * 10 + d < USIZE_BOUND then parseDigitsAux (acc * 10 + d) rest else none

/-- Strip one leading `+` sign (unsigned `from_str_radix` rejects `-`). -/
def stripPlus (s : List Char) : List Char :=
  match s with
  | c :: rest => if c = '+' then rest else s
  | [] => s

/-- Model of Rust `str::parse::<usize>()`: optional `+`, then a nonempty
run of decimal digits, with 64-bit overflow rejection. -/
def parseUsize (s : List Char) : Option Nat :=
  let digits := stripPlus s
  if digits = [] then none else parseDigitsAux 0 digits

/-- The error enum from `src/cpu-utils/src/error.rs` (`CpuAffinityError`). -/
inductive CpuAffinityError where
  | SystemCall (msg : List Char)
  | NotSupported
  | InvalidCpu (cpu max : Nat)
  | InvalidPhysicalCore (core max : Nat)
  | EmptyCpuList
  | ParseError (detail : List Char)
deriving DecidableEq

/-- Maximum number of slots in a glibc `cpu_set_t` (`CPU_SETSIZE`). -/
def CPU_SETSIZE : Nat := 1024

/-- The message prefix of `format!("Invalid CPU range: \x7b\x7d", part)`. -/
def invalidRangeMsg : List Char := "Invalid CPU range: ".toList

/-- The message prefix of `format!("Invalid CPU ID: \x7b\x7d", part)`. -/
def invalidIdMsg : List Char := "Invalid CPU ID: ".toList

/-- Boolean predicate used to locate the first dash of a range token
(models `part.find('-')` via `takeWhile`/`dropWhile`). -/
def notDash (c : Char) : Bool := decide (c ≠ '-')

/-- Processing of one comma-separated token of `parse_cpu_range_list`
(the body of the `for part in s.split(',')` loop).  The accumulator is the
`HashSet<usize>` named `cpus` in the Rust code. -/
def processPart (cpus : Finset Nat) (rawPart : List Char) :
    Except CpuAffinityError (Finset Nat) :=
  let part := trimChars rawPart
  if part = [] then .ok cpus
  else
    let fromDash := part.dropWhile notDash
    if fromDash = [] then
      match parseUsize part with
      | some cpu => .ok (insert cpu cpus)
      | none => .error (.ParseError (invalidIdMsg ++ part))
    else
      match parseUsize (trimChars (part.takeWhile notDash)) with
      | none => .error (.ParseError (invalidRangeMsg ++ part))
      | some start =>
        match parseUsize (trimChars fromDash.tail) with
        | none => .error (.ParseError (invalidRangeMsg ++ part))
        | some stop => .ok (cpus ∪ Finset.Icc start stop)

/-- The token loop of `parse_cpu_range_list`: process each token in order,
aborting on the first failure (the `?` operator inside the `for` loop). -/
def processParts (cpus : Finset Nat) : List (List Char) → Except CpuAffinityError (Finset Nat)
  | [] => .ok cpus
  | p :: rest =>
    match processPart cpus p with
    | .error e => .error e
    | .ok cpus' => processParts cpus' rest

/-- Model of `parse_cpu_range_list` (affinity.rs lines 296-332): split on
commas, process every token into a deduplicating set, then return the
ascending-sorted contents (`sort_unstable` on the collected `Vec`). -/
def parse_cpu_range_list (s : List Char) : Except CpuAffinityError (List Nat) :=
  match processParts ∅ (s.splitOn ',') with
  | .error e => .error e
  | .ok cpus => .ok (cpus.sort (· ≤ ·))

/-- The operating-system environment and thread-scheduler state seen by the
affinity module.  `presentFile` and `isolatedFile` are the contents of
`/sys/devices/system/cpu/present` and `/sys/devices/system/cpu/isolated`
(`none` when the read fails), `nprocsConf` is the value returned by
`sysconf(_SC_NPROCESSORS_CONF)`, `affinityMask` is the scheduling mask of the
calling thread, `schedSetFails` forces the `sched_setaffinity` syscall to
fail (e.g. permission denied) with OS error text `osError`, and `setCalls`
counts issued `sched_setaffinity` syscalls. -/
structure SysState where
  presentFile : Option (List Char)
  nprocsConf : Int
  isolatedFile : Option (List Char)
  affinityMask : Finset Nat
  schedSetFails : Bool
  osError : List Char
  setCalls : Nat
deriving DecidableEq

/-- The sysfs branch of `max_cpu_id`: parse the trimmed file content as
either the high end of a `low-high` range (`content.split('-').nth(1)`,
parsed with no further trimming, exactly as `range.parse::<usize>()`) or a
lone integer; `none` sends the caller to the `sysconf` fallback. -/
def maxFromContent (content : List Char) : Option Nat :=
  match (content.splitOn '-')[1]? with
  | some range => parseUsize range
  | none => parseUsize content

/-- Message of the fallback failure in `max_cpu_id`. -/
def procCountFailMsg : List Char := "Failed to get processor count".toList

/-- The `sysconf(_SC_NPROCESSORS_CONF)` fallback of `max_cpu_id`: error when
the count is non-positive, otherwise `(count as usize).saturating_sub(1)`. -/
def sysconfFallback (st : SysState) : Except CpuAffinityError Nat :=
  if st.nprocsConf ≤ 0 then .error (.SystemCall procCountFailMsg)
  else .ok (st.nprocsConf.toNat - 1)

/-- Model of `max_cpu_id` (affinity.rs lines 189-216). -/
def max_cpu_id (st : SysState) : Except CpuAffinityError Nat :=
  match st.presentFile with
  | some content =>
    match maxFromContent (trimChars content) with
    | some m => .ok m
    | none => sysconfFallback st
  | none => sysconfFallback st

/-- The validation loop of `set_cpu_affinity` (affinity.rs lines 59-70),
iterating over the deduplicated CPU set: each CPU is first checked against
the system maximum, then against `CPU_SETSIZE`. -/
def validateCpus (maxCpu : Nat) : List Nat → Option CpuAffinityError
  | [] => none
  | cpu :: rest =>
    if cpu > maxCpu then some (.InvalidCpu cpu maxCpu)
    else if cpu ≥ CPU_SETSIZE then some (.InvalidCpu cpu (CPU_SETSIZE - 1))
    else validateCpus maxCpu rest

/-- Model of `set_cpu_affinity` (affinity.rs lines 46-101), state-passing.
Duplicates are removed by collecting into a set; an empty set is rejected;
every CPU is validated; only then is the `sched_setaffinity` syscall issued
(counted by `setCalls`), storing exactly the validated set as the mask when
the kernel accepts it. -/
def set_cpu_affinity (st : SysState) (cpuList : List Nat) :
    Except CpuAffinityError Unit × SysState :=
  let cpus := cpuList.toFinset
  if cpus = ∅ then (.error .EmptyCpuList, st)
  else
    match max_cpu_id st with
    | .error e => (.error e, st)
    | .ok maxCpu =>
      match validateCpus maxCpu (cpus.sort (· ≤ ·)) with
      | some e => (.error e, st)
      | none =>
        let st' := { st with setCalls := st.setCalls + 1 }
        if st.schedSetFails then (.error (.SystemCall st.osError), st')
        else (.ok (), { st' with affinityMask := cpus })

/-- Model of `cpu_affinity` (affinity.rs lines 129-163): read the mask back
(`sched_getaffinity` on the current thread, modelled as succeeding), then
scan `0..=max_cpu_id()` collecting the set members (`CPU_ISSET` returns
false beyond `CPU_SETSIZE`). -/
def cpu_affinity (st : SysState) : Except CpuAffinityError (List Nat) :=
  match max_cpu_id st with
  | .error e => .error e
  | .ok maxCpu =>
    .ok ((List.range (maxCpu + 1)).filter
      (fun cpu => decide (cpu < CPU_SETSIZE ∧ cpu ∈ st.affinityMask)))

/-- Model of `isolated_cpus` (affinity.rs lines 273-288). -/
def isolated_cpus (st : SysState) : Except CpuAffinityError (List Nat) :=
  match st.isolatedFile with
  | none => .ok []
  | some content =>
    let c := trimChars content
    if c = [] then .ok [] else parse_cpu_range_list c

/-- Character of a decimal digit. -/
def digitChar (d : Nat) : Char := Char.ofNat (48 + d)

/-- Decimal representation of a natural number, most significant digit
first (the output of Rust `usize` formatting). -/
def natToChars (n : Nat) : List Char :=
  if n = 0 then ['0'] else (Nat.digits 10 n).reverse.map digitChar

/-- Modelled from the spec: the repository has no formatter for parse
results, but spec section 8 states idempotence through "the canonical
textual formatting of the parse result"; this is that formatter, writing
the canonical comma-separated decimal form of a CPU list. -/
def formatCpuList (l : List Nat) : List Char :=
  List.intercalate [','] (l.map natToChars)

/-- A token that is bad in the sense of claim C5: after trimming it is
nonempty and is either a non-numeric dashless token, or a range whose left
or right endpoint is empty after trimming. -/
def isBadToken (rawPart : List Char) : Prop :=
  trimChars rawPart ≠ [] ∧
    (((trimChars rawPart).dropWhile notDash = [] ∧ parseUsize (trimChars rawPart) = none) ∨
      ((trimChars rawPart).dropWhile notDash ≠ [] ∧
        trimChars ((trimChars rawPart).takeWhile notDash) = []) ∨
      ((trimChars rawPart).dropWhile notDash ≠ [] ∧
        trimChars ((trimChars rawPart).dropWhile notDash).tail = []))

instance (p : List Char) : Decidable (isBadToken p) := by
  unfold isBadToken; infer_instance

/-- A token on which the parser loop body fails (with an error independent
of the accumulated set). -/
def tokenFails (rawPart : List Char) : Prop :=
  ∃ e, processPart ∅ rawPart = .error e

deriving instance DecidableEq for Except

/-! ### Helper lemmas: characters, trimming, decimal parsing -/

theorem digitChar_spec (d : Nat) (hd : d < 10) :
    digitVal (digitChar d) = some d ∧ digitChar d ≠ '+' ∧ digitChar d ≠ '-' ∧
      digitChar d ≠ ',' ∧ isWS (digitChar d) = false := by
  interval_cases d <;> exact ⟨by decide, by decide, by decide, by decide, by decide⟩

theorem dropWhile_eq_self_of (p : Char → Bool) (l : List Char)
    (h : ∀ c ∈ l, p c = false) : l.dropWhile p = l := by
  cases l with
  | nil => rfl
  | cons c t => rw [List.dropWhile_cons, h c (by simp)]; simp

theorem dropWhile_eq_nil_of (p : Char → Bool) (l : List Char)
    (h : ∀ c ∈ l, p c = true) : l.dropWhile p = [] := by
  induction l with
  | nil => rfl
  | cons c t ih =>
    rw [List.dropWhile_cons, h c (by simp)]
    simp only [if_true]
    exact ih fun x hx => h x (by simp [hx])

theorem trimChars_eq_self (l : List Char) (h : ∀ c ∈ l, isWS c = false) :
    trimChars l = l := by
  unfold trimChars
  rw [dropWhile_eq_self_of _ _ h,
    dropWhile_eq_self_of _ _ (fun c hc => h c (List.mem_reverse.mp hc)),
    List.reverse_reverse]

/-- Big-endian decimal value of a digit list, starting from `acc`. -/
def valBE (acc : Nat) (ds : List Nat) : Nat := ds.foldl (fun a d => a * 10 + d) acc

theorem valBE_cons (acc d : Nat) (ds : List Nat) :
    valBE acc (d :: ds) = valBE (acc * 10 + d) ds := rfl

theorem valBE_append (acc : Nat) (xs ys : List Nat) :
    valBE acc (xs ++ ys) = valBE (valBE acc xs) ys := by
  simp [valBE]

theorem le_valBE (acc : Nat) (ds : List Nat) : acc ≤ valBE acc ds := by
  induction ds generalizing acc with
  | nil => exact Nat.le_refl _
  | cons d t ih =>
    rw [valBE_cons]
    exact le_trans (by omega) (ih (acc * 10 + d))

theorem valBE_reverse (ds : List Nat) : valBE 0 ds.reverse = Nat.ofDigits 10 ds := by
  induction ds with
  | nil => rfl
  | cons d t ih =>
    rw [List.reverse_cons, valBE_append, ih, Nat.ofDigits_cons]
    show Nat.ofDigits 10 t * 10 + d = d + 10 * Nat.ofDigits 10 t
    omega

theorem parseDigitsAux_lt (l : List Char) (acc v : Nat) (hacc : acc < USIZE_BOUND)
    (h : parseDigitsAux acc l = some v) : v < USIZE_BOUND := by
  induction l generalizing acc with
  | nil =>
    rw [parseDigitsAux] at h
    cases h
    exact hacc
  | cons c t ih =>
    rw [parseDigitsAux] at h
    split at h
    · exact absurd h (by simp)
    · split at h
      · exact ih _ (by assumption) h
      · exact absurd h (by simp)

theorem parseUsize_lt (s : List Char) (v : Nat) (h : parseUsize s = some v) :
    v < USIZE_BOUND := by
  simp only [parseUsize] at h
  split at h
  · exact absurd h (by simp)
  · exact parseDigitsAux_lt _ 0 v (by unfold USIZE_BOUND; positivity) h

theorem parseDigitsAux_map (ds : List Nat) (acc : Nat) (hds : ∀ d ∈ ds, d < 10)
    (hb : valBE acc ds < USIZE_BOUND) :
    parseDigitsAux acc (ds.map digitChar) = some (valBE acc ds) := by
  induction ds generalizing acc with
  | nil => rfl
  | cons d t ih =>
    have hd : d < 10 := hds d (by simp)
    rw [valBE_cons] at hb ⊢
    simp only [List.map_cons, parseDigitsAux, (digitChar_spec d hd).1]
    rw [if_pos (by have := le_valBE (acc * 10 + d) t; omega)]
    exact ih _ (fun x hx => hds x (by simp [hx])) hb

theorem natToChars_digits (n : Nat) :
    ∀ c ∈ natToChars n, ∃ d, d < 10 ∧ c = digitChar d := by
  intro c hc
  unfold natToChars at hc
  split at hc
  · refine ⟨0, by omega, ?_⟩
    simp only [List.mem_singleton] at hc
    rw [hc]; decide
  · simp only [List.mem_map, List.mem_reverse] at hc
    obtain ⟨d, hd, rfl⟩ := hc
    exact ⟨d, Nat.digits_lt_base (by norm_num) hd, rfl⟩

theorem parseUsize_natToChars (n : Nat) (hn : n < USIZE_BOUND) :
    parseUsize (natToChars n) = some n := by
  by_cases h0 : n = 0
  · subst h0; decide
  · have hds : Nat.digits 10 n ≠ [] := Nat.digits_ne_nil_iff_ne_zero.mpr h0
    have hrn : (Nat.digits 10 n).reverse ≠ [] := by
      simpa using hds
    obtain ⟨d, t, hdt⟩ := List.exists_cons_of_ne_nil hrn
    have hmem : ∀ x ∈ (Nat.digits 10 n).reverse, x < 10 := fun x hx =>
      Nat.digits_lt_base (by norm_num) (List.mem_reverse.mp hx)
    have hval : valBE 0 (Nat.digits 10 n).reverse = n := by
      rw [valBE_reverse, Nat.ofDigits_digits]
    have hd10 : d < 10 := hmem d (by rw [hdt]; simp)
    unfold parseUsize natToChars
    rw [if_neg h0, hdt, List.map_cons, stripPlus, if_neg (digitChar_spec d hd10).2.1]
    rw [if_neg (by simp)]
    rw [← List.map_cons, ← hdt, parseDigitsAux_map _ _ hmem (by rw [hval]; exact hn), hval]

/-! ### Helper lemmas: single-token processing -/

theorem parseUsize_nil : parseUsize [] = none := rfl

theorem processPart_skip (acc : Finset Nat) (p : List Char) (h : trimChars p = []) :
    processPart acc p = .ok acc := by
  simp [processPart, h]

theorem processPart_error_shape (acc : Finset Nat) (p : List Char) (e : CpuAffinityError)
    (h : processPart acc p = .error e) :
    ∃ d, e = .ParseError d ∧ trimChars p <:+ d := by
  by_cases h1 : trimChars p = []
  · rw [processPart_skip acc p h1] at h
    exact absurd h (by simp)
  · by_cases h2 : (trimChars p).dropWhile notDash = []
    · cases hp : parseUsize (trimChars p) with
      | some cpu => simp [processPart, h1, h2, hp] at h
      | none =>
        simp [processPart, h1, h2, hp] at h
        exact ⟨invalidIdMsg ++ trimChars p, h.symm, invalidIdMsg, rfl⟩
    · cases hs : parseUsize (trimChars ((trimChars p).takeWhile notDash)) with
      | none =>
        simp [processPart, h1, h2, hs] at h
        exact ⟨invalidRangeMsg ++ trimChars p, h.symm, invalidRangeMsg, rfl⟩
      | some a =>
        cases ht : parseUsize (trimChars ((trimChars p).dropWhile notDash).tail) with
        | none =>
          simp [processPart, h1, h2, hs, ht] at h
          exact ⟨invalidRangeMsg ++ trimChars p, h.symm, invalidRangeMsg, rfl⟩
        | some b => simp [processPart, h1, h2, hs, ht] at h

theorem processPart_error_irrel (acc acc' : Finset Nat) (p : List Char)
    (e : CpuAffinityError) (h : processPart acc p = .error e) :
    processPart acc' p = .error e := by
  by_cases h1 : trimChars p = []
  · rw [processPart_skip acc p h1] at h
    exact absurd h (by simp)
  · by_cases h2 : (trimChars p).dropWhile notDash = []
    · cases hp : parseUsize (trimChars p) with
      | some cpu => simp [processPart, h1, h2, hp] at h
      | none =>
        simp [processPart, h1, h2, hp] at h ⊢
        exact h
    · cases hs : parseUsize (trimChars ((trimChars p).takeWhile notDash)) with
      | none =>
        simp [processPart, h1, h2, hs] at h ⊢
        exact h
      | some a =>
        cases ht : parseUsize (trimChars ((trimChars p).dropWhile notDash).tail) with
        | none =>
          simp [processPart, h1, h2, hs, ht] at h ⊢
          exact h
        | some b => simp [processPart, h1, h2, hs, ht] at h

theorem processPart_bounds (acc acc' : Finset Nat) (p : List Char)
    (h : processPart acc p = .ok acc') (hb : ∀ x ∈ acc, x < USIZE_BOUND) :
    ∀ x ∈ acc', x < USIZE_BOUND := by
  by_cases h1 : trimChars p = []
  · rw [processPart_skip acc p h1] at h
    simp only [Except.ok.injEq] at h
    subst h; exact hb
  · by_cases h2 : (trimChars p).dropWhile notDash = []
    · cases hp : parseUsize (trimChars p) with
      | some cpu =>
        simp [processPart, h1, h2, hp] at h
        subst h
        intro x hx
        rcases Finset.mem_insert.mp hx with rfl | hxm
        · exact parseUsize_lt _ _ hp
        · exact hb x hxm
      | none => simp [processPart, h1, h2, hp] at h
    · cases hs : parseUsize (trimChars ((trimChars p).takeWhile notDash)) with
      | none => simp [processPart, h1, h2, hs] at h
      | some a =>
        cases ht : parseUsize (trimChars ((trimChars p).dropWhile notDash).tail) with
        | none => simp [processPart, h1, h2, hs, ht] at h
        | some b =>
          simp [processPart, h1, h2, hs, ht] at h
          subst h
          intro x hx
          rcases Finset.mem_union.mp hx with hxm | hxI
          · exact hb x hxm
          · have := (Finset.mem_Icc.mp hxI).2
            have := parseUsize_lt _ _ ht
            omega

theorem isBadToken_fails (p : List Char) (h : isBadToken p) : tokenFails p := by
  obtain ⟨hne, hcase⟩ := h
  rcases hcase with ⟨h2, h3⟩ | ⟨h2, h3⟩ | ⟨h2, h3⟩
  · exact ⟨.ParseError (invalidIdMsg ++ trimChars p),
      by simp [processPart, hne, h2, h3]⟩
  · exact ⟨.ParseError (invalidRangeMsg ++ trimChars p),
      by simp [processPart, hne, h2, h3, parseUsize_nil]⟩
  · cases hs : parseUsize (trimChars ((trimChars p).takeWhile notDash)) with
    | none => exact ⟨.ParseError (invalidRangeMsg ++ trimChars p),
        by simp [processPart, hne, h2, hs]⟩
    | some a => exact ⟨.ParseError (invalidRangeMsg ++ trimChars p),
        by simp [processPart, hne, h2, h3, hs, parseUsize_nil]⟩

theorem natToChars_ne_nil (n : Nat) : natToChars n ≠ [] := by
  unfold natToChars
  split
  · simp
  · simp [Nat.digits_ne_nil_iff_ne_zero, *]

theorem processPart_natToChars (acc : Finset Nat) (n : Nat) (hn : n < USIZE_BOUND) :
    processPart acc (natToChars n) = .ok (insert n acc) := by
  have hdigit : ∀ c ∈ natToChars n, ∃ d, d < 10 ∧ c = digitChar d := natToChars_digits n
  have htrim : trimChars (natToChars n) = natToChars n := by
    refine trimChars_eq_self _ fun c hc => ?_
    obtain ⟨d, hd, rfl⟩ := hdigit c hc
    exact (digitChar_spec d hd).2.2.2.2
  have hdash : (natToChars n).dropWhile notDash = [] := by
    refine dropWhile_eq_nil_of _ _ fun c hc => ?_
    obtain ⟨d, hd, rfl⟩ := hdigit c hc
    simp [notDash, (digitChar_spec d hd).2.2.1]
  simp [processPart, htrim, natToChars_ne_nil n, hdash, parseUsize_natToChars n hn]

/-! ### Helper lemmas: the token loop and the parser -/

theorem processParts_error (parts : List (List Char)) (acc : Finset Nat)
    (h : ∃ p ∈ parts, tokenFails p) :
    ∃ p e, p ∈ parts ∧ processPart ∅ p = .error e ∧
      processParts acc parts = .error e := by
  induction parts generalizing acc with
  | nil => simp at h
  | cons q t ih =>
    cases hq : processPart acc q with
    | error e =>
      exact ⟨q, e, by simp, processPart_error_irrel _ _ _ _ hq,
        by rw [processParts, hq]⟩
    | ok acc' =>
      obtain ⟨p, hp, hf⟩ := h
      rcases List.mem_cons.mp hp with rfl | hpt
      · obtain ⟨e, he⟩ := hf
        rw [processPart_error_irrel _ acc _ _ he] at hq
        exact absurd hq (by simp)
      · obtain ⟨p', e, hp', he, hfold⟩ := ih acc' ⟨p, hpt, hf⟩
        exact ⟨p', e, by simp [hp'], he, by rw [processParts, hq]; exact hfold⟩

theorem processParts_all_empty (parts : List (List Char)) (acc : Finset Nat)
    (h : ∀ p ∈ parts, trimChars p = []) :
    processParts acc parts = .ok acc := by
  induction parts with
  | nil => rfl
  | cons q t ih =>
    rw [processParts, processPart_skip acc q (h q (by simp))]
    exact ih fun p hp => h p (by simp [hp])

theorem processParts_bounds (parts : List (List Char)) (acc res : Finset Nat)
    (hacc : ∀ x ∈ acc, x < USIZE_BOUND)
    (h : processParts acc parts = .ok res) : ∀ x ∈ res, x < USIZE_BOUND := by
  induction parts generalizing acc with
  | nil =>
    rw [processParts] at h
    simp only [Except.ok.injEq] at h
    subst h; exact hacc
  | cons q t ih =>
    rw [processParts] at h
    cases hq : processPart acc q with
    | error e => rw [hq] at h; exact absurd h (by simp)
    | ok acc' =>
      rw [hq] at h
      exact ih acc' (processPart_bounds acc acc' q hq hacc) h

theorem processParts_map_natToChars (l : List Nat) (acc : Finset Nat)
    (h : ∀ n ∈ l, n < USIZE_BOUND) :
    processParts acc (l.map natToChars) = .ok (acc ∪ l.toFinset) := by
  induction l generalizing acc with
  | nil => simp [processParts]
  | cons n t ih =>
    rw [List.map_cons, processParts, processPart_natToChars acc n (h n (by simp))]
    show processParts (insert n acc) (List.map natToChars t) = _
    rw [ih (insert n acc) (fun x hx => h x (by simp [hx]))]
    congr 1
    rw [List.toFinset_cons, Finset.insert_union, Finset.union_insert]

theorem parse_sorted (s : List Char) (l : List Nat)
    (h : parse_cpu_range_list s = .ok l) : l.Sorted (· < ·) := by
  unfold parse_cpu_range_list at h
  split at h
  · exact absurd h (by simp)
  · simp only [Except.ok.injEq] at h
    subst h
    exact Finset.sort_sorted_lt _

theorem parse_bounded (s : List Char) (l : List Nat)
    (h : parse_cpu_range_list s = .ok l) : ∀ x ∈ l, x < USIZE_BOUND := by
  unfold parse_cpu_range_list at h
  split at h
  · exact absurd h (by simp)
  · simp only [Except.ok.injEq] at h
    subst h
    intro x hx
    next cpus heq =>
    exact processParts_bounds _ _ _ (by simp) heq x (Finset.mem_sort (· ≤ ·) |>.mp hx)

/-! ### Helper lemmas: sorted lists, filtering, validation -/

theorem toFinset_sort_of_sorted_lt (l : List Nat) (h : l.Sorted (· < ·)) :
    Finset.sort (· ≤ ·) l.toFinset = l :=
  (List.toFinset_sort (· ≤ ·) h.nodup).mpr h.le_of_lt

theorem filter_range_eq_sort (F : Finset Nat) (m : Nat)
    (hb : ∀ c ∈ F, c ≤ m ∧ c < CPU_SETSIZE) :
    (List.range (m + 1)).filter (fun cpu => decide (cpu < CPU_SETSIZE ∧ cpu ∈ F)) =
      Finset.sort (· ≤ ·) F := by
  have hs : ((List.range (m + 1)).filter
      (fun cpu => decide (cpu < CPU_SETSIZE ∧ cpu ∈ F))).Sorted (· < ·) :=
    List.Pairwise.sublist (List.filter_sublist _) (List.sorted_lt_range (m + 1))
  have hf : ((List.range (m + 1)).filter
      (fun cpu => decide (cpu < CPU_SETSIZE ∧ cpu ∈ F))).toFinset = F := by
    ext x
    simp only [List.mem_toFinset, List.mem_filter, List.mem_range, decide_eq_true_eq]
    constructor
    · rintro ⟨-, -, hx⟩; exact hx
    · intro hx
      have := hb x hx
      exact ⟨by omega, by omega, hx⟩
  calc (List.range (m + 1)).filter (fun cpu => decide (cpu < CPU_SETSIZE ∧ cpu ∈ F))
      = Finset.sort (· ≤ ·) ((List.range (m + 1)).filter
          (fun cpu => decide (cpu < CPU_SETSIZE ∧ cpu ∈ F))).toFinset :=
        (toFinset_sort_of_sorted_lt _ hs).symm
    _ = Finset.sort (· ≤ ·) F := by rw [hf]

theorem validateCpus_none (m : Nat) (l : List Nat) (h : validateCpus m l = none) :
    ∀ c ∈ l, c ≤ m ∧ c < CPU_SETSIZE := by
  induction l with
  | nil => simp
  | cons c t ih =>
    rw [validateCpus] at h
    split at h
    · exact absurd h (by simp)
    · split at h
      · exact absurd h (by simp)
      · intro x hx
        rcases List.mem_cons.mp hx with rfl | hxt
        · omega
        · exact ih h x hxt

theorem validateCpus_bad (m : Nat) (l : List Nat)
    (h : ∃ c ∈ l, m < c ∨ CPU_SETSIZE ≤ c) :
    ∃ c mx, validateCpus m l = some (.InvalidCpu c mx) ∧ c ∈ l ∧
      ((m < c ∧ mx = m) ∨ (c ≤ m ∧ CPU_SETSIZE ≤ c ∧ mx = CPU_SETSIZE - 1)) := by
  induction l with
  | nil => simp at h
  | cons c t ih =>
    by_cases h1 : c > m
    · exact ⟨c, m, by rw [validateCpus, if_pos h1], by simp, Or.inl ⟨h1, rfl⟩⟩
    · by_cases h2 : c ≥ CPU_SETSIZE
      · exact ⟨c, CPU_SETSIZE - 1, by rw [validateCpus, if_neg h1, if_pos h2],
          by simp, Or.inr ⟨by omega, h2, rfl⟩⟩
      · obtain ⟨x, hx, hbad⟩ := h
        rcases List.mem_cons.mp hx with rfl | hxt
        · rcases hbad with hb | hb <;> omega
        · obtain ⟨c', mx, hv, hc', hprop⟩ := ih ⟨x, hxt, hbad⟩
          exact ⟨c', mx, by rw [validateCpus, if_neg h1, if_neg h2]; exact hv,
            by simp [hc'], hprop⟩

theorem validateCpus_some_shape (m : Nat) (l : List Nat) (e : CpuAffinityError)
    (h : validateCpus m l = some e) : ∃ c mx, e = .InvalidCpu c mx := by
  induction l with
  | nil => exact absurd h (by simp [validateCpus])
  | cons c t ih =>
    rw [validateCpus] at h
    split at h
    · simp only [Option.some.injEq] at h
      exact ⟨c, m, h.symm⟩
    · split at h
      · simp only [Option.some.injEq] at h
        exact ⟨c, CPU_SETSIZE - 1, h.symm⟩
      · exact ih h

/-! ### Helper lemmas: topology and affinity operations -/

theorem max_cpu_id_error_shape (st : SysState) (e : CpuAffinityError)
    (h : max_cpu_id st = .error e) : e = .SystemCall procCountFailMsg := by
  unfold max_cpu_id sysconfFallback at h
  split at h
  · split at h
    · exact absurd h (by simp)
    · split at h
      · simp only [Except.error.injEq] at h
        exact h.symm
      · exact absurd h (by simp)
  · split at h
    · simp only [Except.error.injEq] at h
      exact h.symm
    · exact absurd h (by simp)

theorem max_cpu_id_fields (st' st : SysState) (hp : st'.presentFile = st.presentFile)
    (hn : st'.nprocsConf = st.nprocsConf) : max_cpu_id st' = max_cpu_id st := by
  unfold max_cpu_id sysconfFallback
  rw [hp, hn]

theorem cpu_affinity_of_ok_max (st : SysState) (m : Nat) (hm : max_cpu_id st = .ok m) :
    cpu_affinity st = .ok ((List.range (m + 1)).filter
      (fun cpu => decide (cpu < CPU_SETSIZE ∧ cpu ∈ st.affinityMask))) := by
  unfold cpu_affinity
  rw [hm]

theorem set_cpu_affinity_ok (st : SysState) (S : List Nat) (st' : SysState)
    (h : set_cpu_affinity st S = (.ok (), st')) :
    S.toFinset ≠ ∅ ∧ st.schedSetFails = false ∧
      (∃ m, max_cpu_id st = .ok m ∧
        validateCpus m (Finset.sort (· ≤ ·) S.toFinset) = none) ∧
      st' = { st with affinityMask := S.toFinset, setCalls := st.setCalls + 1 } := by
  simp only [set_cpu_affinity] at h
  split at h
  · simp at h
  · next h1 =>
    split at h
    · simp at h
    · next m hm =>
      split at h
      · simp at h
      · next hv =>
        split at h
        · simp at h
        · next hf =>
          simp only [Prod.mk.injEq] at h
          exact ⟨h1, by simpa using hf, ⟨m, hm, hv⟩, h.2.symm⟩

theorem parse_eval (s : List Char) (l : List Nat) (hs : l.Sorted (· < ·))
    (h : processParts ∅ (s.splitOn ',') = .ok l.toFinset) :
    parse_cpu_range_list s = .ok l := by
  unfold parse_cpu_range_list
  rw [h]
  show Except.ok (Finset.sort (· ≤ ·) l.toFinset) = Except.ok l
  rw [toFinset_sort_of_sorted_lt l hs]

theorem set_cpu_affinity_ok_eval (st : SysState) (S sorted : List Nat) (m : Nat)
    (hne : S.toFinset ≠ ∅) (hm : max_cpu_id st = .ok m)
    (hsort : Finset.sort (· ≤ ·) S.toFinset = sorted)
    (hv : validateCpus m sorted = none) (hf : st.schedSetFails = false) :
    set_cpu_affinity st S =
      (.ok (), { st with affinityMask := S.toFinset, setCalls := st.setCalls + 1 }) := by
  simp only [set_cpu_affinity, if_neg hne, hm, hsort, hv, hf]
  simp

/-! ### Claims -/

/-- Claim C1: for every set of CPU IDs fully within the valid range, after a
successful `set_cpu_affinity(S)`, an immediately following `cpu_affinity()`
on the same thread returns exactly the ascending-sorted deduplication of
`S`. -/
theorem claim_C1 (st : SysState) (S : List Nat) (st' : SysState)
    (h : set_cpu_affinity st S = (.ok (), st')) :
    cpu_affinity st' = .ok (Finset.sort (· ≤ ·) S.toFinset) := by
  obtain ⟨hne, hsf, ⟨m, hm, hv⟩, rfl⟩ := set_cpu_affinity_ok st S st' h
  have hm' : max_cpu_id
      { st with affinityMask := S.toFinset, setCalls := st.setCalls + 1 } = .ok m := by
    rw [max_cpu_id_fields
      { st with affinityMask := S.toFinset, setCalls := st.setCalls + 1 } st rfl rfl]
    exact hm
  rw [cpu_affinity_of_ok_max _ m hm']
  congr 1
  have hbound : ∀ c ∈ S.toFinset, c ≤ m ∧ c < CPU_SETSIZE := fun c hc =>
    validateCpus_none m _ hv c ((Finset.mem_sort (· ≤ ·)).mpr hc)
  exact filter_range_eq_sort S.toFinset m hbound

/-- Witness for C1 at a concrete state: binding to CPUs `[5, 2, 5]` on an
8-CPU system and reading the affinity back yields `[2, 5]`. -/
theorem claim_C1_witness :
    cpu_affinity ⟨some "0-7".toList, 8, none, ([5, 2, 5] : List Nat).toFinset,
      false, [], 1⟩ = .ok [2, 5] := by
  have hsort : Finset.sort (· ≤ ·) (([5, 2, 5] : List Nat).toFinset) = [2, 5] := by
    have h25 : ([5, 2, 5] : List Nat).toFinset = ([2, 5] : List Nat).toFinset := by decide
    rw [h25, toFinset_sort_of_sorted_lt [2, 5] (by decide)]
  have hset := set_cpu_affinity_ok_eval ⟨some "0-7".toList, 8, none, ∅, false, [], 0⟩
    [5, 2, 5] [2, 5] 7 (by decide) (by decide) hsort (by decide) rfl
  exact (claim_C1 _ _ _ hset).trans (by rw [hsort])

/-- Claim C4: whenever the range-list parser succeeds, the returned sequence
is strictly ascending (ascending-sorted with no duplicates). -/
theorem claim_C4 (s : List Char) (l : List Nat)
    (h : parse_cpu_range_list s = .ok l) : l.Sorted (· < ·) :=
  parse_sorted s l h

/-- Witness for C4 at the concrete input `"7,3,7"`. -/
theorem claim_C4_witness :
    parse_cpu_range_list "7,3,7".toList = .ok [3, 7] ∧
      ([3, 7] : List Nat).Sorted (· < ·) := by
  have hp : parse_cpu_range_list "7,3,7".toList = .ok [3, 7] :=
    parse_eval _ _ (by decide) (by decide)
  exact ⟨hp, claim_C4 "7,3,7".toList [3, 7] hp⟩

/-- Claim C9: a range token whose start exceeds its end does not fail: both
endpoints must parse, but the inclusive span is empty, so the token
contributes no values; in particular `parse_cpu_range_list "5-2"` returns
the empty set. -/
theorem claim_C9 :
    (∀ (acc : Finset Nat) (p : List Char) (a b : Nat),
        trimChars p ≠ [] →
        (trimChars p).dropWhile notDash ≠ [] →
        parseUsize (trimChars ((trimChars p).takeWhile notDash)) = some a →
        parseUsize (trimChars ((trimChars p).dropWhile notDash).tail) = some b →
        b < a → processPart acc p = .ok acc) ∧
      parse_cpu_range_list "5-2".toList = .ok [] := by
  constructor
  · intro acc p a b h1 h2 h3 h4 h5
    simp [processPart, h1, h2, h3, h4, Finset.Icc_eq_empty (by omega : ¬a ≤ b)]
  · exact parse_eval _ [] (by simp) (by decide)

/-- Witness for C9: processing the token `"5-2"` leaves the set unchanged. -/
theorem claim_C9_witness :
    processPart (∅ : Finset Nat) "5-2".toList = .ok ∅ :=
  claim_C9.1 ∅ "5-2".toList 5 2 (by decide) (by decide) (by decide) (by decide)
    (by decide)

/-- Claim C10: whenever `set_cpu_affinity` returns `EmptyCpuList` or
`InvalidCpu`, it returns before the scheduling-mask syscall is issued, so
the state (mask and syscall counter) is exactly as it was. -/
theorem claim_C10 (st : SysState) (S : List Nat)
    (h : (set_cpu_affinity st S).1 = .error .EmptyCpuList ∨
      (∃ c mx, (set_cpu_affinity st S).1 = .error (.InvalidCpu c mx))) :
    (set_cpu_affinity st S).2 = st := by
  by_cases h1 : S.toFinset = ∅
  · simp [set_cpu_affinity, h1]
  · cases hm : max_cpu_id st with
    | error e => simp [set_cpu_affinity, h1, hm]
    | ok m =>
      cases hv : validateCpus m (Finset.sort (· ≤ ·) S.toFinset) with
      | some e => simp [set_cpu_affinity, h1, hm, hv]
      | none =>
        by_cases hf : st.schedSetFails <;>
          simp [set_cpu_affinity, h1, hm, hv, hf] at h

/-- Witness for C10: a failing empty-list call leaves the state unchanged. -/
theorem claim_C10_witness :
    (set_cpu_affinity ⟨some "0-7".toList, 8, none, ∅, false, [], 0⟩ []).2 =
      ⟨some "0-7".toList, 8, none, ∅, false, [], 0⟩ :=
  claim_C10 ⟨some "0-7".toList, 8, none, ∅, false, [], 0⟩ [] (Or.inl (by decide))

/-- Claim C7: `set_cpu_affinity` fails with `EmptyCpuList` exactly when the
deduplicated CPU set is empty (duplicates are permitted and removed). -/
theorem claim_C7 (st : SysState) (S : List Nat) :
    (set_cpu_affinity st S).1 = .error .EmptyCpuList ↔ S.toFinset = ∅ := by
  constructor
  · intro h
    by_contra h1
    cases hm : max_cpu_id st with
    | error e =>
      obtain rfl := max_cpu_id_error_shape st e hm
      simp [set_cpu_affinity, h1, hm] at h
    | ok m =>
      cases hv : validateCpus m (Finset.sort (· ≤ ·) S.toFinset) with
      | some e =>
        obtain ⟨c, mx, rfl⟩ := validateCpus_some_shape _ _ _ hv
        simp [set_cpu_affinity, h1, hm, hv] at h
      | none =>
        by_cases hf : st.schedSetFails <;>
          simp [set_cpu_affinity, h1, hm, hv, hf] at h
  · intro h
    simp [set_cpu_affinity, h]

/-- Claim C2: `set_cpu_affinity` validates every requested CPU ID against
`max_cpu_id()`, failing with `InvalidCpu (cpu, max)` for IDs above the
system maximum, and separately against the `CPU_SETSIZE` capacity, failing
with `InvalidCpu (cpu, CPU_SETSIZE - 1)` for IDs at or beyond capacity even
when the system maximum is higher; no mask is applied when any ID fails. -/
theorem claim_C2 (st : SysState) (m : Nat) (hmax : max_cpu_id st = .ok m) :
    (∀ cpu, m < cpu → set_cpu_affinity st [cpu] = (.error (.InvalidCpu cpu m), st)) ∧
    (∀ cpu, CPU_SETSIZE ≤ cpu → cpu ≤ m →
      set_cpu_affinity st [cpu] = (.error (.InvalidCpu cpu (CPU_SETSIZE - 1)), st)) ∧
    (∀ S : List Nat, (∃ c ∈ S, m < c ∨ CPU_SETSIZE ≤ c) →
      ∃ c mx, c ∈ S ∧
        ((m < c ∧ mx = m) ∨ (c ≤ m ∧ CPU_SETSIZE ≤ c ∧ mx = CPU_SETSIZE - 1)) ∧
        set_cpu_affinity st S = (.error (.InvalidCpu c mx), st)) := by
  refine ⟨?_, ?_, ?_⟩
  · intro cpu hc
    have hv : validateCpus m (Finset.sort (· ≤ ·) ([cpu] : List Nat).toFinset) =
        some (.InvalidCpu cpu m) := by
      have h1 : ([cpu] : List Nat).toFinset = {cpu} := by simp
      rw [h1, Finset.sort_singleton, validateCpus, if_pos hc]
    simp only [set_cpu_affinity, if_neg (show ¬(([cpu] : List Nat).toFinset = ∅) by simp),
      hmax, hv]
  · intro cpu hcap hle
    have hv : validateCpus m (Finset.sort (· ≤ ·) ([cpu] : List Nat).toFinset) =
        some (.InvalidCpu cpu (CPU_SETSIZE - 1)) := by
      have h1 : ([cpu] : List Nat).toFinset = {cpu} := by simp
      rw [h1, Finset.sort_singleton, validateCpus, if_neg (by omega), if_pos hcap]
    simp only [set_cpu_affinity, if_neg (show ¬(([cpu] : List Nat).toFinset = ∅) by simp),
      hmax, hv]
  · intro S hbad
    obtain ⟨c0, hc0, hbad0⟩ := hbad
    have hmem : c0 ∈ Finset.sort (· ≤ ·) S.toFinset :=
      (Finset.mem_sort (· ≤ ·)).mpr (List.mem_toFinset.mpr hc0)
    obtain ⟨c, mx, hv, hcmem, hprop⟩ := validateCpus_bad m _ ⟨c0, hmem, hbad0⟩
    refine ⟨c, mx, List.mem_toFinset.mp ((Finset.mem_sort (· ≤ ·)).mp hcmem), hprop, ?_⟩
    have hne : S.toFinset ≠ ∅ := Finset.ne_empty_of_mem (List.mem_toFinset.mpr hc0)
    simp only [set_cpu_affinity, if_neg hne, hmax, hv]

/-- Witness for C2: on a system reporting maximum CPU ID 2000, requesting
CPU 1500 fails against the 1024-slot mask capacity with max 1023. -/
theorem claim_C2_witness :
    set_cpu_affinity ⟨some "0-2000".toList, 8, none, ∅, false, [], 0⟩ [1500] =
      (.error (.InvalidCpu 1500 1023), ⟨some "0-2000".toList, 8, none, ∅, false, [], 0⟩) :=
  (claim_C2 ⟨some "0-2000".toList, 8, none, ∅, false, [], 0⟩ 2000 (by decide)).2.1 1500
    (by decide) (by decide)

/-- Counterexample to claim C3 as stated: with the present-CPUs file
unavailable and a configured-processor count of `0` (non-positive), the
claim predicts the saturated result `ok 0`, but the code returns a
system-call error. -/
theorem claim_C3_counterexample :
    max_cpu_id ⟨none, 0, none, ∅, false, [], 0⟩ =
        .error (.SystemCall procCountFailMsg) ∧
      max_cpu_id ⟨none, 0, none, ∅, false, [], 0⟩ ≠ .ok 0 :=
  ⟨by decide, by decide⟩

/-- Claim C3 (amended): when the present-CPUs file is unavailable or
unparsable, `max_cpu_id()` falls back to the configured-processor-count
query and returns `count - 1` when the count is positive; if the count is
non-positive it fails with a system-call error (it never saturates to 0). -/
theorem claim_C3 (st : SysState)
    (h : st.presentFile = none ∨
      ∃ c, st.presentFile = some c ∧ maxFromContent (trimChars c) = none) :
    (0 < st.nprocsConf → max_cpu_id st = .ok (st.nprocsConf.toNat - 1)) ∧
    (st.nprocsConf ≤ 0 →
      max_cpu_id st = .error (.SystemCall procCountFailMsg)) := by
  have hfb : max_cpu_id st = sysconfFallback st := by
    rcases h with h | ⟨c, hc, hm⟩
    · unfold max_cpu_id
      rw [h]
    · unfold max_cpu_id
      rw [hc]
      simp only [hm]
  constructor
  · intro hpos
    rw [hfb]
    unfold sysconfFallback
    rw [if_neg (by omega)]
  · intro hneg
    rw [hfb]
    unfold sysconfFallback
    rw [if_pos hneg]

/-- Witness for C3 (amended), at a state with no readable present-CPUs file
and 4 configured processors. -/
theorem claim_C3_witness :
    max_cpu_id ⟨none, 4, none, ∅, false, [], 0⟩ = .ok 3 :=
  (claim_C3 ⟨none, 4, none, ∅, false, [], 0⟩ (Or.inl rfl)).1 (by decide)

/-- Claim C5: the parser fails with a `ParseError` carrying the offending
token text whenever any token is non-numeric or is a range missing either
endpoint, while empty tokens are skipped without error. -/
theorem claim_C5 (s : List Char) :
    ((∃ p ∈ s.splitOn ',', isBadToken p) →
      ∃ d, parse_cpu_range_list s = .error (.ParseError d) ∧
        ∃ p ∈ s.splitOn ',', tokenFails p ∧ trimChars p <:+ d) ∧
    ((∀ p ∈ s.splitOn ',', trimChars p = []) → parse_cpu_range_list s = .ok []) ∧
    (∀ (acc : Finset Nat) (p : List Char), trimChars p = [] →
      processPart acc p = .ok acc) := by
  refine ⟨?_, ?_, fun acc p hp => processPart_skip acc p hp⟩
  · rintro ⟨p0, hp0, hbad⟩
    obtain ⟨p, e, hpmem, herr, hfold⟩ :=
      processParts_error (s.splitOn ',') ∅ ⟨p0, hp0, isBadToken_fails p0 hbad⟩
    obtain ⟨d, rfl, hsuf⟩ := processPart_error_shape ∅ p e herr
    refine ⟨d, ?_, p, hpmem, ⟨_, herr⟩, hsuf⟩
    unfold parse_cpu_range_list
    rw [hfold]
  · intro hall
    unfold parse_cpu_range_list
    rw [processParts_all_empty _ _ hall]
    show Except.ok (Finset.sort (· ≤ ·) (∅ : Finset Nat)) = Except.ok []
    rw [Finset.sort_empty]

/-- Witness for C5 at the concrete input `"-5"` (range missing its left
endpoint). -/
theorem claim_C5_witness :
    ∃ d, parse_cpu_range_list "-5".toList = .error (.ParseError d) ∧
      ∃ p ∈ "-5".toList.splitOn ',', tokenFails p ∧ trimChars p <:+ d :=
  (claim_C5 "-5".toList).1 ⟨"-5".toList, by decide, by decide⟩

/-- Claim C6: `isolated_cpus()` returns an empty set (not an error) when the
isolated-CPUs file is missing or empty after trimming; otherwise it
delegates to the range-list parser (propagating its errors), and any
successful result is ascending-sorted. -/
theorem claim_C6 (st : SysState) :
    (st.isolatedFile = none → isolated_cpus st = .ok []) ∧
    (∀ c, st.isolatedFile = some c → trimChars c = [] → isolated_cpus st = .ok []) ∧
    (∀ c, st.isolatedFile = some c → trimChars c ≠ [] →
      isolated_cpus st = parse_cpu_range_list (trimChars c)) ∧
    (∀ l, isolated_cpus st = .ok l → l.Sorted (· < ·)) := by
  refine ⟨?_, ?_, ?_, ?_⟩
  · intro h
    unfold isolated_cpus
    rw [h]
  · intro c hc htrim
    unfold isolated_cpus
    rw [hc]
    simp [htrim]
  · intro c hc htrim
    unfold isolated_cpus
    rw [hc]
    simp [htrim]
  · intro l hl
    simp only [isolated_cpus] at hl
    split at hl
    · simp only [Except.ok.injEq] at hl
      subst hl
      simp
    · split at hl
      · simp only [Except.ok.injEq] at hl
        subst hl
        simp
      · exact parse_sorted _ _ hl

/-- Witness for C6 at a state with no isolated-CPUs file. -/
theorem claim_C6_witness :
    isolated_cpus ⟨none, 4, none, ∅, false, [], 0⟩ = .ok [] :=
  (claim_C6 ⟨none, 4, none, ∅, false, [], 0⟩).1 rfl

/-- Claim C8: range-list parsing is idempotent on its own canonical output:
re-parsing the canonical textual formatting of a successful parse result
yields the same list. -/
theorem claim_C8 (s : List Char) (l : List Nat)
    (h : parse_cpu_range_list s = .ok l) :
    parse_cpu_range_list (formatCpuList l) = .ok l := by
  have hsort := parse_sorted s l h
  have hb := parse_bounded s l h
  by_cases hnil : l = []
  · subst hnil
    exact parse_eval _ [] (by simp) (by decide)
  · have hnoc : ∀ tok ∈ l.map natToChars, ',' ∉ tok := by
      intro tok htok hc
      obtain ⟨n, _, rfl⟩ := List.mem_map.mp htok
      obtain ⟨d, hd, hdc⟩ := natToChars_digits n ',' hc
      exact (digitChar_spec d hd).2.2.2.1 hdc.symm
    have hmapne : l.map natToChars ≠ [] := by simp [hnil]
    refine parse_eval _ l hsort ?_
    unfold formatCpuList
    rw [List.splitOn_intercalate _ ',' hnoc hmapne,
      processParts_map_natToChars l ∅ hb, Finset.empty_union]

/-- Witness for C8: re-parsing the formatting of the parse of `"0-2"`. -/
theorem claim_C8_witness :
    parse_cpu_range_list (formatCpuList [0, 1, 2]) = .ok [0, 1, 2] :=
  claim_C8 "0-2".toList [0, 1, 2]
    (parse_eval _ _ (by decide) (by decide))
